import Mathlib

/-!
# Verification development for the cleanbox processing engine

A shallow embedding of the core of the `cleanbox` repository
(`src/tags.rs`, `src/document.rs`, `src/media.rs`, `src/naming.rs`,
`src/filesystem.rs`, `src/processor.rs`) together with theorems checking the
natural-language specification against the code.

Rust strings are modelled as `List Char`; byte-oriented operations
(`str::len`, byte indices returned by `str::find`) are computed through the
UTF-8 length of each character.  Fallible Rust functions returning
`Result<T, CleanboxError>` become `Except CleanboxError T`.  Filesystem and
console collaborators (explicitly out of scope in the spec) are passed in as
explicit data: directory listings, per-file pipeline outcomes, file-content
hashes and interactive-collection outcomes are parameters of the embedded
orchestration functions.
-/

namespace Cleanbox

/-! ## Rust string primitives -/

/-- Number of bytes of the UTF-8 encoding of a character. -/
def utf8CharLen (c : Char) : Nat :=
  if c.toNat < 0x80 then 1
  else if c.toNat < 0x800 then 2
  else if c.toNat < 0x10000 then 3
  else 4

/-- Rust `str::len`: length in UTF-8 bytes. -/
def rustLen (s : List Char) : Nat :=
  (s.map utf8CharLen).sum

/-- Helper for `splitOnChar`; `acc` holds the current piece reversed. -/
def splitOnAux (sep : Char) : List Char → List Char → List (List Char)
  | [], acc => [acc.reverse]
  | c :: rest, acc =>
    if c = sep then acc.reverse :: splitOnAux sep rest []
    else splitOnAux sep rest (c :: acc)

/-- Rust `str::split(sep)` for a single-character separator. -/
def splitOnChar (sep : Char) (s : List Char) : List (List Char) :=
  splitOnAux sep s []

/-- The Unicode `White_Space` code points, as trimmed by Rust `str::trim`. -/
def isRustWhitespace (c : Char) : Bool :=
  c.toNat ∈ [0x9, 0xA, 0xB, 0xC, 0xD, 0x20, 0x85, 0xA0, 0x1680,
    0x2000, 0x2001, 0x2002, 0x2003, 0x2004, 0x2005, 0x2006, 0x2007, 0x2008,
    0x2009, 0x200A, 0x2028, 0x2029, 0x202F, 0x205F, 0x3000]

/-- Rust `str::trim`: drop leading and trailing whitespace. -/
def rustTrim (s : List Char) : List Char :=
  ((s.dropWhile isRustWhitespace).reverse.dropWhile isRustWhitespace).reverse

/-- Strip one trailing carriage return, as `str::lines` does per line. -/
def stripTrailingCR (l : List Char) : List Char :=
  if l.getLast? = some '\r' then l.dropLast else l

/-- Rust `str::lines`: split on newline, dropping a final empty piece
produced by a trailing newline, and stripping one `\r` per line. -/
def rustLines (content : List Char) : List (List Char) :=
  if content = [] then []
  else
    (if (splitOnChar '\n' content).getLast? = some []
     then (splitOnChar '\n' content).dropLast
     else splitOnChar '\n' content).map stripTrailingCR

/-- Rust `str::find(needle)`: byte index of the first occurrence of
`needle` as a substring, if any. -/
def findSubByte (needle : List Char) : List Char → Option Nat
  | [] => if needle = [] then some 0 else none
  | c :: rest =>
    if needle.isPrefixOf (c :: rest) then some 0
    else (findSubByte needle rest).map (fun i => utf8CharLen c + i)

/-- Rust `str::contains(needle)` (substring containment). -/
def containsStr (needle hay : List Char) : Bool :=
  (findSubByte needle hay).isSome

/-- Rust `str::parse::<u32>()`: an optional leading `+` followed by one or
more ASCII digits, rejecting values that overflow `u32`. -/
def parseU32 (s : List Char) : Option Nat :=
  let ds := if s.head? = some '+' then s.tail else s
  if ds = [] then none
  else if ds.all (·.isDigit) then
    let v := ds.foldl (fun a c => a * 10 + (c.toNat - 48)) 0
    if v < 4294967296 then some v else none
  else none

/-- Rust `Ord` on strings (lexicographic; UTF-8 byte order coincides with
code-point order), as a Bool-valued `le` for `mergeSort`. -/
def listLe (a b : List Char) : Bool := decide (a ≤ b)

/-! ## Errors (`src/error.rs`) -/

/-- `CleanboxError` from `src/error.rs`.  The `Io` payload is modelled by
its message. -/
inductive CleanboxError where
  | ioErr (msg : List Char)
  | exif (msg : List Char)
  | invalidPath (p : List Char)
  | invalidDateTime (dt : List Char)
  | invalidFileExtension (p : List Char)
  | invalidFileStem (p : List Char)
  | fileAlreadyExists (p : List Char)
  | unsupportedFileType (mime : List Char)
  | userCancelled
  | invalidUserInput (msg : List Char)
  | tagDictionaryCorrupted (msg : List Char)
deriving DecidableEq

/-- The `Display` implementation of `CleanboxError`. -/
def CleanboxError.display : CleanboxError → List Char
  | .ioErr msg => "IO error: ".data ++ msg
  | .exif msg => "EXIF error: ".data ++ msg
  | .invalidPath p => "Invalid path: ".data ++ p
  | .invalidDateTime dt => "Invalid datetime format: ".data ++ dt
  | .invalidFileExtension p => "File has no extension: ".data ++ p
  | .invalidFileStem p => "Invalid file stem: ".data ++ p
  | .fileAlreadyExists p => "File already exists: ".data ++ p
  | .unsupportedFileType mime => "Unsupported file type: ".data ++ mime
  | .userCancelled => "Operation cancelled by user".data
  | .invalidUserInput msg => "Invalid user input: ".data ++ msg
  | .tagDictionaryCorrupted msg => "Tag dictionary corrupted: ".data ++ msg

instance {ε α : Type} [DecidableEq ε] [DecidableEq α] :
    DecidableEq (Except ε α) := fun a b =>
  match a, b with
  | .ok x, .ok y =>
    if h : x = y then .isTrue (by rw [h]) else .isFalse (by simp [h])
  | .error x, .error y =>
    if h : x = y then .isTrue (by rw [h]) else .isFalse (by simp [h])
  | .ok _, .error _ => .isFalse (by simp)
  | .error _, .ok _ => .isFalse (by simp)

/-- The per-file error message `format!("{}: {}", file_path.display(), e)`
used by both processors. -/
def errorMessage (path : List Char) (e : CleanboxError) : List Char :=
  path ++ ": ".data ++ e.display

/-! ## Tag dictionary (`src/tags.rs`) -/

namespace TagDictionary

/-- `validate_tag_format` from `src/tags.rs`. -/
def validate_tag_format (tag : List Char) : Except CleanboxError Unit :=
  if tag = [] then
    .error (.invalidUserInput "Tag cannot be empty".data)
  else if !(tag.all fun c => c.isLower || c.isDigit || c == '-') then
    .error (.invalidUserInput
      ("Tag must be in kebab-case (lowercase, numbers, hyphens only): ".data ++ tag))
  else if tag.head? = some '-' ∨ tag.getLast? = some '-' then
    .error (.invalidUserInput
      ("Tag cannot start or end with hyphen: ".data ++ tag))
  else if containsStr "--".data tag then
    .error (.invalidUserInput
      ("Tag cannot contain consecutive hyphens: ".data ++ tag))
  else if !(tag.all fun c => c.toNat ≤ 127) then
    .error (.invalidUserInput
      ("Tag must contain only ASCII characters (English): ".data ++ tag))
  else
    .ok ()

/-- `HashSet::insert`, modelled on a duplicate-free list. -/
def insertTag (tags : List (List Char)) (tag : List Char) : List (List Char) :=
  if tag ∈ tags then tags else tags ++ [tag]

/-- The line-processing loop of `TagDictionary::load_from_file`. -/
def load_lines : List (List Char) → List (List Char) →
    Except CleanboxError (List (List Char))
  | [], tags => .ok tags
  | line :: rest, tags =>
    let tag := rustTrim line
    if tag = [] then load_lines rest tags
    else
      match validate_tag_format tag with
      | .error e => .error e
      | .ok _ => load_lines rest (insertTag tags tag)

/-- `TagDictionary::load_from_file` applied to file content that was read
successfully (a read failure is mapped to `TagDictionaryCorrupted` before
this loop runs and is outside this model). -/
def load_from_content (content : List Char) :
    Except CleanboxError (List (List Char)) :=
  load_lines (rustLines content) []

/-- Rust `Vec::join("\n")`. -/
def joinNl : List (List Char) → List Char
  | [] => []
  | [t] => t
  | t :: rest => t ++ '\n' :: joinNl rest

/-- The file content written by `TagDictionary::save_to_file`: tags sorted
alphabetically, joined by newlines, with a final newline. -/
def save_content (tags : List (List Char)) : List Char :=
  joinNl (tags.mergeSort listLe) ++ "\n".data

/-- `SimilarTag` from `src/tags.rs`; the `f64` similarity only ever takes
the exact values `1.0` and `0.5`, modelled in `ℚ`. -/
structure SimilarTag where
  tag : List Char
  distance : Nat
  similarity : ℚ
deriving DecidableEq

/-- Comparison used by `sort_by(|a, b| a.tag.cmp(&b.tag))`. -/
def tagLe (a b : SimilarTag) : Bool := listLe a.tag b.tag

/-- `TagDictionary::find_similar`.  The source iterates the backing
`HashSet` in arbitrary order and then sorts each bucket by tag, so the
result only depends on the set of tags; the dictionary is modelled as the
list of its elements. -/
def find_similar (tags : List (List Char)) (query : List Char)
    (maxResults : Nat) : List SimilarTag :=
  if query = [] then []
  else
    let prefixMatches := tags.filterMap fun t =>
      if query.isPrefixOf t then some (⟨t, 0, 1⟩ : SimilarTag) else none
    let substringMatches := tags.filterMap fun t =>
      if query.isPrefixOf t then none
      else
        match findSubByte query t with
        | some i => some (⟨t, i, 1/2⟩ : SimilarTag)
        | none => none
    ((prefixMatches.mergeSort tagLe) ++ (substringMatches.mergeSort tagLe)).take
      maxResults

end TagDictionary

/-! ## Spec-side models used for refinement comparisons

These definitions follow the spec's words, not the source; each is compared
against the corresponding source-derived definition. -/

/-- Levenshtein edit distance between two character lists (used only by the
spec-side similarity model). -/
def lev : List Char → List Char → Nat
  | [], ys => ys.length
  | x :: xs, [] => (x :: xs).length
  | x :: xs, y :: ys =>
    if x = y then lev xs ys
    else 1 + min (lev xs (y :: ys)) (min (lev (x :: xs) ys) (lev xs ys))
  termination_by a b => a.length + b.length

/-- Modelled from the spec: the claimed scoring
`similarity = 1 − levenshtein(query, tag) / max(len(query), len(tag))`
plus a `+0.5` prefix bonus, a `+0.2` bonus for containing `"-" + query`,
and a `+0.1` bonus for `query` occurring at index `≤ 2`, capped at `1.0`. -/
def claimSimilarity (query tag : List Char) : ℚ :=
  let base : ℚ := 1 - (lev query tag : ℚ) / (max (rustLen query) (rustLen tag) : ℚ)
  let bonus1 : ℚ := if query.isPrefixOf tag then 1/2 else 0
  let bonus2 : ℚ := if containsStr ('-' :: query) tag then 1/5 else 0
  let bonus3 : ℚ :=
    if (match findSubByte query tag with
        | some i => decide (i ≤ 2)
        | none => false) then 1/10 else 0
  min 1 (base + bonus1 + bonus2 + bonus3)

/-- Modelled from the spec: the claimed behaviour of `find_similar` —
score every tag, discard scores `≤ 0.3`, sort by similarity descending
(stable, so ties keep input order), truncate to `max_results`; an empty
query returns no results. -/
def find_similar_claim (tags : List (List Char)) (query : List Char)
    (maxResults : Nat) : List (List Char × ℚ) :=
  if query = [] then []
  else
    ((tags.filterMap fun t =>
        let s := claimSimilarity query t
        if 3/10 < s then some (t, s) else none).mergeSort
      (fun a b => decide (b.2 ≤ a.2))).take maxResults

/-- Modelled from the spec: a strict `YYYY-MM-DD` date — four digits,
hyphen, two digits, hyphen, two digits — with year in `[1900, 2100]`,
month in `[1, 12]` and day in `[1, 31]`. -/
def isStrictDate (d : List Char) : Bool :=
  match d with
  | [y1, y2, y3, y4, s1, m1, m2, s2, d1, d2] =>
    s1 == '-' && s2 == '-' &&
    y1.isDigit && y2.isDigit && y3.isDigit && y4.isDigit &&
    m1.isDigit && m2.isDigit && d1.isDigit && d2.isDigit &&
    (let y := ((((y1.toNat - 48) * 10 + (y2.toNat - 48)) * 10 +
        (y3.toNat - 48)) * 10 + (y4.toNat - 48))
     decide (1900 ≤ y ∧ y ≤ 2100)) &&
    (let m := (m1.toNat - 48) * 10 + (m2.toNat - 48)
     decide (1 ≤ m ∧ m ≤ 12)) &&
    (let dd := (d1.toNat - 48) * 10 + (d2.toNat - 48)
     decide (1 ≤ dd ∧ dd ≤ 31))
  | _ => false

/-! ## File types (`src/media.rs`) -/

/-- `FileType` from `src/media.rs`. -/
inductive FileType where
  | image
  | video
  | document
  | unknown
deriving DecidableEq

/-- One character of Rust `str::to_lowercase`.  ASCII uppercase maps into
ASCII lowercase; the only non-ASCII characters whose Unicode lowercase
contains an ASCII letter are `İ` (U+0130, lowering to `i` followed by
U+0307) and the Kelvin sign (U+212A, lowering to `k`); every other
character lowers to non-ASCII characters and is kept as-is, which cannot
change any of the ASCII prefix tests in `from_mime`. -/
def lowerChar (c : Char) : List Char :=
  if c.isUpper then [Char.ofNat (c.toNat + 32)]
  else if c.toNat = 0x130 then ['i', Char.ofNat 0x307]
  else if c.toNat = 0x212A then ['k']
  else [c]

/-- Rust `str::to_lowercase` (see `lowerChar`). -/
def rustToLowercase (s : List Char) : List Char :=
  (s.map lowerChar).flatten

/-- `FileType::from_mime`. -/
def FileType.from_mime (mime : List Char) : FileType :=
  let mimeLower := rustToLowercase mime
  if "image/".data.isPrefixOf mimeLower then .image
  else if "video/".data.isPrefixOf mimeLower then .video
  else if "application/pdf".data.isPrefixOf mimeLower
      || "application/msword".data.isPrefixOf mimeLower
      || "application/vnd.openxmlformats".data.isPrefixOf mimeLower
      || "text/".data.isPrefixOf mimeLower then .document
  else .unknown

/-- `FileType::is_supported`. -/
def FileType.is_supported : FileType → Bool
  | .image | .video | .document => true
  | .unknown => false

/-- `FileType::needs_interactive_processing`. -/
def FileType.needs_interactive_processing : FileType → Bool
  | .document => true
  | _ => false

/-- `FileType::is_auto_processable`. -/
def FileType.is_auto_processable : FileType → Bool
  | .image | .video => true
  | _ => false

/-- `FileType::should_skip`. -/
def FileType.should_skip : FileType → Bool
  | .unknown => true
  | _ => false

/-- `FileMetadata` from `src/media.rs`. -/
structure FileMetadata where
  datetime_original : Option (List Char)
  file_type : FileType
  mime_type : List Char
  file_hash : Option (List Char)

/-- `File` from `src/media.rs`. -/
structure File where
  path : List Char
  metadata : Option FileMetadata

/-! ## Document input (`src/document.rs`) -/

/-- `DocumentInput` from `src/document.rs`. -/
structure DocumentInput where
  date : List Char
  description : List Char
  tags : List (List Char)

namespace DocumentInput

/-- `DocumentInput::validate_date` (it reads only `self.date`). -/
def validate_date (date : List Char) : Except CleanboxError Unit :=
  if rustLen date ≠ 10 then
    .error (.invalidUserInput
      ("Date must be in YYYY-MM-DD format, got: ".data ++ date))
  else
    match splitOnChar '-' date with
    | [py, pm, pd] =>
      match parseU32 py with
      | none => .error (.invalidUserInput ("Invalid year: ".data ++ py))
      | some y =>
        if ¬ (1900 ≤ y ∧ y ≤ 2100) then
          .error (.invalidUserInput
            ("Year must be between 1900-2100, got: ".data ++ Nat.toDigits 10 y))
        else
          match parseU32 pm with
          | none => .error (.invalidUserInput ("Invalid month: ".data ++ pm))
          | some m =>
            if ¬ (1 ≤ m ∧ m ≤ 12) then
              .error (.invalidUserInput
                ("Month must be between 01-12, got: ".data ++ pad2 m))
            else
              match parseU32 pd with
              | none => .error (.invalidUserInput ("Invalid day: ".data ++ pd))
              | some d =>
                if ¬ (1 ≤ d ∧ d ≤ 31) then
                  .error (.invalidUserInput
                    ("Day must be between 01-31, got: ".data ++ pad2 d))
                else .ok ()
    | _ =>
      .error (.invalidUserInput
        ("Date must be in YYYY-MM-DD format, got: ".data ++ date))
where
  /-- Rust `format!("{n:02}")`. -/
  pad2 (n : Nat) : List Char :=
    if n < 10 then '0' :: Nat.toDigits 10 n else Nat.toDigits 10 n

/-- `DocumentInput::validate_description`. -/
def validate_description (d : List Char) : Except CleanboxError Unit :=
  if d = [] then
    .error (.invalidUserInput "Description cannot be empty".data)
  else if !(d.all fun c => c.isLower || c.isDigit || c == '-') then
    .error (.invalidUserInput
      ("Description must be in kebab-case (lowercase, numbers, hyphens only): ".data ++ d))
  else if d.head? = some '-' ∨ d.getLast? = some '-' then
    .error (.invalidUserInput
      ("Description cannot start or end with hyphen: ".data ++ d))
  else if containsStr "--".data d then
    .error (.invalidUserInput
      ("Description cannot contain consecutive hyphens: ".data ++ d))
  else .ok ()

/-- The per-tag loop body of `DocumentInput::validate_tags` (note: unlike
`validate_tag_format` in `src/tags.rs`, it has no ASCII check — the
kebab-case check already restricts the alphabet). -/
def validate_tags_loop : List (List Char) → Except CleanboxError Unit
  | [] => .ok ()
  | tag :: rest =>
    if tag = [] then
      .error (.invalidUserInput "Tag cannot be empty".data)
    else if !(tag.all fun c => c.isLower || c.isDigit || c == '-') then
      .error (.invalidUserInput
        ("Tag must be in kebab-case (lowercase, numbers, hyphens only): ".data ++ tag))
    else if tag.head? = some '-' ∨ tag.getLast? = some '-' then
      .error (.invalidUserInput
        ("Tag cannot start or end with hyphen: ".data ++ tag))
    else if containsStr "--".data tag then
      .error (.invalidUserInput
        ("Tag cannot contain consecutive hyphens: ".data ++ tag))
    else validate_tags_loop rest

/-- `DocumentInput::validate_tags`. -/
def validate_tags (tags : List (List Char)) : Except CleanboxError Unit :=
  if tags = [] then
    .error (.invalidUserInput "At least one tag is required".data)
  else validate_tags_loop tags

/-- `DocumentInput::validate`. -/
def validate (input : DocumentInput) : Except CleanboxError Unit :=
  match validate_date input.date with
  | .error e => .error e
  | .ok _ =>
    match validate_description input.description with
    | .error e => .error e
    | .ok _ => validate_tags input.tags

end DocumentInput

/-! ## Naming strategies (`src/naming.rs`) -/

namespace DocumentNamingStrategy

/-- `DocumentNamingStrategy::generate_name_from_input`. -/
def generate_name_from_input (input : DocumentInput) (extension : List Char) :
    Except CleanboxError (List Char) :=
  match input.validate with
  | .error e => .error e
  | .ok _ =>
    let filename := input.date ++ "_".data ++ input.description ++ "@@".data
    let filename :=
      if input.tags.isEmpty then filename
      else filename ++ List.intercalate ",".data input.tags
    .ok (filename ++ ".".data ++ extension)

/-- `DocumentNamingStrategy`'s `NamingStrategy::generate_name` impl. -/
def generate_name (_file : File) : Except CleanboxError (List Char) :=
  .error (.invalidUserInput
    "DocumentNamingStrategy requires user input via generate_name_from_input() method".data)

end DocumentNamingStrategy

/-! ## File hashing helpers (`src/filesystem.rs`) -/

namespace FileHasher

/-- `FileHasher::generate_hash_suffix`.  The hash produced by
`calculate_file_hash` is an ASCII hex string, so the byte slice
`hash[..min(length, hash.len())]` is the character-level take. -/
def generate_hash_suffix (hash : List Char) (length : Nat) : List Char :=
  hash.take (min length hash.length)

/-- The position of the last `.` at index at least 1, which is where Rust
`Path::file_stem` / `Path::extension` split a file name: a name with no
dot, or whose only dot is the leading character, has no extension. -/
def lastDotPos (name : List Char) : Option Nat :=
  ((List.range name.length).filter fun i =>
    decide (1 ≤ i) && (name.getD i ' ' == '.')).getLast?

/-- Rust `Path::file_name` for a single-component path: `""`, `"."` and
`".."` have no file name. -/
def rustFileNameOpt (name : List Char) : Option (List Char) :=
  if name = [] ∨ name = ".".data ∨ name = "..".data then none
  else some name

/-- Rust `Path::file_stem` for a single-component path. -/
def rustFileStem (name : List Char) : Option (List Char) :=
  match rustFileNameOpt name with
  | none => none
  | some n =>
    match lastDotPos n with
    | some i => some (n.take i)
    | none => some n

/-- Rust `Path::extension` for a single-component path. -/
def rustExtension (name : List Char) : Option (List Char) :=
  match rustFileNameOpt name with
  | none => none
  | some n =>
    match lastDotPos n with
    | some i => some (n.drop (i + 1))
    | none => none

/-- `FileHasher::append_hash_to_filename`. -/
def append_hash_to_filename (originalName hashSuffix : List Char) :
    Except CleanboxError (List Char) :=
  match rustFileStem originalName with
  | none => .error (.invalidFileStem originalName)
  | some stem =>
    match rustExtension originalName with
    | none => .error (.invalidFileExtension originalName)
    | some ext =>
      .ok (stem ++ "_".data ++ hashSuffix ++ ".".data ++ ext)

end FileHasher

/-! ## Processors (`src/processor.rs`)

The filesystem and console collaborators are out of scope, so the embedded
orchestration functions take their contributions as data: the directory
listing, each file's single-file pipeline outcome, the content hash of the
source file, and each document's interactive-collection outcome. -/

/-- `DuplicateHandling` from `src/config.rs`. -/
inductive DuplicateHandling where
  | skip
  | appendHash
  | overwrite
  | error
deriving DecidableEq

namespace FileProcessor

/-- `FileProcessor::handle_duplicate`.  `hashResult` is the outcome of
`self.file_manager.calculate_file_hash(source_path)` and `targetName` the
file-name component of the (already existing) target path. -/
def handle_duplicate (handling : DuplicateHandling) (hashLength : Nat)
    (hashResult : Except CleanboxError (List Char)) (targetName : List Char) :
    Except CleanboxError (List Char) :=
  match handling with
  | .skip => .error (.fileAlreadyExists targetName)
  | .overwrite => .ok targetName
  | .error => .error (.fileAlreadyExists targetName)
  | .appendHash =>
    match hashResult with
    | .error e => .error e
    | .ok hash =>
      let hashSuffix := FileHasher.generate_hash_suffix hash hashLength
      match FileHasher.rustFileNameOpt targetName with
      | none => .error (.invalidPath targetName)
      | some originalName =>
        FileHasher.append_hash_to_filename originalName hashSuffix

/-- The final-target step of `FileProcessor::process_single_file`:
`handle_duplicate` is called if and only if the computed target path
already exists. -/
def resolveTarget (targetPathExists : Bool) (handling : DuplicateHandling)
    (hashLength : Nat) (hashResult : Except CleanboxError (List Char))
    (targetName : List Char) : Except CleanboxError (List Char) :=
  if targetPathExists then
    handle_duplicate handling hashLength hashResult targetName
  else .ok targetName

/-- `FileProcessor::should_skip_error`. -/
def should_skip_error : CleanboxError → Bool
  | .unsupportedFileType _ => true
  | .exif _ => true
  | _ => false

/-- `ProcessingResult` from `src/processor.rs`. -/
structure ProcessingResult where
  processed_files : Nat
  skipped_files : Nat
  failed_files : Nat
  errors : List (List Char)
deriving DecidableEq

/-- `ProcessingResult::new`. -/
def ProcessingResult.new : ProcessingResult := ⟨0, 0, 0, []⟩

/-- `ProcessingResult::add_error`. -/
def ProcessingResult.add_error (r : ProcessingResult) (msg : List Char) :
    ProcessingResult :=
  { r with errors := r.errors ++ [msg], failed_files := r.failed_files + 1 }

/-- One entry of the inbox listing: either not a regular file (skipped by
the `is_file` guard), or a regular file together with the outcome of
`process_single_file` on it. -/
inductive DirEntry where
  | notFile (path : List Char)
  | file (path : List Char) (outcome : Except CleanboxError Unit)

/-- The per-file loop of `FileProcessor::process_directory`. -/
def processLoop (skipUnsupported : Bool) :
    List DirEntry → ProcessingResult → ProcessingResult
  | [], r => r
  | .notFile _ :: rest, r => processLoop skipUnsupported rest r
  | .file path outcome :: rest, r =>
    match outcome with
    | .ok _ =>
      processLoop skipUnsupported rest
        { r with processed_files := r.processed_files + 1 }
    | .error e =>
      let msg := errorMessage path e
      if should_skip_error e then
        let r := { r with skipped_files := r.skipped_files + 1 }
        let r := if !skipUnsupported then r.add_error msg else r
        processLoop skipUnsupported rest r
      else
        processLoop skipUnsupported rest (r.add_error msg)

/-- `FileProcessor::process_directory`; `listing` is the outcome of
`read_directory` on the inbox. -/
def process_directory (skipUnsupported : Bool)
    (listing : Except CleanboxError (List DirEntry)) :
    Except CleanboxError ProcessingResult :=
  match listing with
  | .error e => .error e
  | .ok entries => .ok (processLoop skipUnsupported entries ProcessingResult.new)

end FileProcessor

namespace UnifiedProcessor

/-- `UnifiedProcessingResult` from `src/processor.rs`. -/
structure UnifiedProcessingResult where
  media_processed : Nat
  documents_processed : Nat
  files_skipped : Nat
  files_failed : Nat
  errors : List (List Char)
deriving DecidableEq

/-- `UnifiedProcessingResult::new`. -/
def UnifiedProcessingResult.new : UnifiedProcessingResult := ⟨0, 0, 0, 0, []⟩

/-- `UnifiedProcessor::should_skip_media_error`. -/
def should_skip_media_error (skipUnsupported : Bool) (e : CleanboxError) :
    Bool :=
  FileProcessor.should_skip_error e && skipUnsupported

/-- The per-file loop of `UnifiedProcessor::process_media_files`; the
second component collects the messages printed to stderr (`eprintln!`). -/
def mediaLoop (skipUnsupported : Bool) :
    List (List Char × Except CleanboxError Unit) →
    UnifiedProcessingResult → List (List Char) →
    UnifiedProcessingResult × List (List Char)
  | [], r, log => (r, log)
  | (_, .ok _) :: rest, r, log =>
    mediaLoop skipUnsupported rest
      { r with media_processed := r.media_processed + 1 } log
  | (path, .error e) :: rest, r, log =>
    let msg := errorMessage path e
    let r := { r with files_failed := r.files_failed + 1,
                      errors := r.errors ++ [msg] }
    let log := if !should_skip_media_error skipUnsupported e then log ++ [msg]
               else log
    mediaLoop skipUnsupported rest r log

/-- `UnifiedProcessor::process_media_files`; each media file is paired with
the outcome of `process_single_file` on it.  Returns the updated
accumulated result and the stderr log. -/
def process_media_files (skipUnsupported : Bool)
    (mediaFiles : List (List Char × Except CleanboxError Unit))
    (result : UnifiedProcessingResult) :
    Except CleanboxError (UnifiedProcessingResult × List (List Char)) :=
  .ok (mediaLoop skipUnsupported mediaFiles result [])

/-- One document file of the document loop in
`UnifiedProcessor::process_document_files`: its path, the outcome of
`document_collector.collect_input` on it, and (when an input was
collected) the outcome of `process_single_document`. -/
structure DocEvent where
  path : List Char
  collect : Except CleanboxError Unit
  processDoc : Except CleanboxError Unit

/-- Record a failed document, as both `Err` arms of the loop do. -/
def docFail (r : UnifiedProcessingResult) (path : List Char)
    (e : CleanboxError) : UnifiedProcessingResult :=
  { r with files_failed := r.files_failed + 1,
           errors := r.errors ++ [errorMessage path e] }

/-- The document loop of `UnifiedProcessor::process_document_files`:
a `UserCancelled` from `collect_input` breaks out of the loop. -/
def docLoop : List DocEvent → UnifiedProcessingResult →
    UnifiedProcessingResult
  | [], r => r
  | ev :: rest, r =>
    match ev.collect with
    | .error .userCancelled => r
    | .error e => docLoop rest (docFail r ev.path e)
    | .ok _ =>
      match ev.processDoc with
      | .ok _ =>
        docLoop rest
          { r with documents_processed := r.documents_processed + 1 }
      | .error e => docLoop rest (docFail r ev.path e)

/-- The observable outcome of `process_document_files`: the accumulated
result (mutated through `&mut`), how many times the tag dictionary was
saved, and the function's return value. -/
structure DocRun where
  result : UnifiedProcessingResult
  saves : Nat
  ret : Except CleanboxError Unit
deriving DecidableEq

/-- `UnifiedProcessor::process_document_files`.  `loadResult` is the
outcome of `TagDictionary::load_from_file`, `saveResult` the outcome of
`save_tag_dictionary` (invoked once, after the loop, whenever the load
succeeded). -/
def process_document_files (loadResult : Except CleanboxError Unit)
    (saveResult : Except CleanboxError Unit) (events : List DocEvent)
    (result : UnifiedProcessingResult) : DocRun :=
  match loadResult with
  | .error e => ⟨result, 0, .error e⟩
  | .ok _ =>
    let r := docLoop events result
    match saveResult with
    | .error e => ⟨r, 1, .error e⟩
    | .ok _ => ⟨r, 1, .ok ()⟩

end UnifiedProcessor

/-! ## Statement vocabulary

Auxiliary definitions used to phrase the theorems below. -/

namespace FileProcessor

/-- A regular file whose pipeline run succeeded. -/
def entryOk : DirEntry → Bool
  | .file _ (.ok _) => true
  | _ => false

/-- A regular file whose pipeline run failed with a skippable error kind
(unsupported file type or metadata/Exif failure). -/
def entrySkippableErr : DirEntry → Bool
  | .file _ (.error e) => should_skip_error e
  | _ => false

/-- A regular file whose pipeline run failed with any other error kind. -/
def entryFatalErr : DirEntry → Bool
  | .file _ (.error e) => !should_skip_error e
  | _ => false

/-- The error message a directory entry contributes to
`ProcessingResult.errors`, if any, under a given skip policy. -/
def reportedError (skipUnsupported : Bool) : DirEntry → Option (List Char)
  | .file p (.error e) =>
    if should_skip_error e then
      if skipUnsupported then none else some (errorMessage p e)
    else some (errorMessage p e)
  | _ => none

end FileProcessor

namespace UnifiedProcessor

/-- The failed media files of a batch, with their errors. -/
def mediaFailures (files : List (List Char × Except CleanboxError Unit)) :
    List (List Char × CleanboxError) :=
  files.filterMap fun f =>
    match f.2 with
    | .error e => some (f.1, e)
    | .ok _ => none

/-- The successfully processed media files of a batch. -/
def mediaSuccesses (files : List (List Char × Except CleanboxError Unit)) :
    List (List Char) :=
  files.filterMap fun f =>
    match f.2 with
    | .ok _ => some f.1
    | .error _ => none

/-- Whether a document event carries the user-cancellation signal from
`collect_input`. -/
def notCancelled (ev : DocEvent) : Bool :=
  decide (ev.collect ≠ .error .userCancelled)

/-- The effect of one non-cancelled document event on the accumulated
result (the loop body of `process_document_files` minus the break). -/
def docStep (r : UnifiedProcessingResult) (ev : DocEvent) :
    UnifiedProcessingResult :=
  match ev.collect with
  | .error .userCancelled => r
  | .error e => docFail r ev.path e
  | .ok _ =>
    match ev.processDoc with
    | .ok _ => { r with documents_processed := r.documents_processed + 1 }
    | .error e => docFail r ev.path e

end UnifiedProcessor

/-! ## General lemmas -/

theorem listLe_trans : ∀ a b c, listLe a b = true → listLe b c = true →
    listLe a c = true := by
  intro a b c hab hbc
  simp only [listLe, decide_eq_true_eq] at *
  exact le_trans hab hbc

theorem listLe_total : ∀ a b, (listLe a b || listLe b a) = true := by
  intro a b
  simp only [listLe, Bool.or_eq_true, decide_eq_true_eq]
  exact le_total a b

/-- Two prefixes of the same list agree on their first characters. -/
theorem heads_agree_of_isPrefixOf {p q l : List Char}
    (hp : p.isPrefixOf l = true) (hq : q.isPrefixOf l = true)
    {a b : Char} (ha : p.head? = some a) (hb : q.head? = some b) : a = b := by
  cases p with
  | nil => simp at ha
  | cons x xs =>
    cases q with
    | nil => simp at hb
    | cons y ys =>
      cases l with
      | nil => simp [List.isPrefixOf] at hp
      | cons c cs =>
        simp only [List.isPrefixOf, Bool.and_eq_true, beq_iff_eq] at hp hq
        simp only [List.head?_cons, Option.some.injEq] at ha hb
        subst ha
        subst hb
        exact hp.1.trans hq.1.symm

/-! ## C8: MIME classification -/

/-- C8: `FileType` classification is a pure function of the MIME string by
case-insensitive prefix matching — `image/*` to Image, `video/*` to Video,
the fixed document prefixes to Document, everything else to Unknown — and
the routing predicates hold exactly: `should_skip` only for Unknown,
`needs_interactive_processing` only for Document, `is_auto_processable`
only for Image and Video. -/
theorem from_mime_classification (mime : List Char) :
    (FileType.from_mime mime = .image ↔
      "image/".data.isPrefixOf (rustToLowercase mime) = true) ∧
    (FileType.from_mime mime = .video ↔
      "video/".data.isPrefixOf (rustToLowercase mime) = true) ∧
    (FileType.from_mime mime = .document ↔
      ("application/pdf".data.isPrefixOf (rustToLowercase mime)
        || "application/msword".data.isPrefixOf (rustToLowercase mime)
        || "application/vnd.openxmlformats".data.isPrefixOf (rustToLowercase mime)
        || "text/".data.isPrefixOf (rustToLowercase mime)) = true) ∧
    (FileType.from_mime mime = .unknown ↔
      ("image/".data.isPrefixOf (rustToLowercase mime) = false ∧
       "video/".data.isPrefixOf (rustToLowercase mime) = false ∧
       ("application/pdf".data.isPrefixOf (rustToLowercase mime)
         || "application/msword".data.isPrefixOf (rustToLowercase mime)
         || "application/vnd.openxmlformats".data.isPrefixOf (rustToLowercase mime)
         || "text/".data.isPrefixOf (rustToLowercase mime)) = false)) ∧
    (∀ t : FileType, t.should_skip = true ↔ t = .unknown) ∧
    (∀ t : FileType, t.needs_interactive_processing = true ↔ t = .document) ∧
    (∀ t : FileType, t.is_auto_processable = true ↔
      (t = .image ∨ t = .video)) := by
  have hagree := fun {p q : List Char} (hp : p.isPrefixOf (rustToLowercase mime) = true)
      (hq : q.isPrefixOf (rustToLowercase mime) = true)
      {a b : Char} (ha : p.head? = some a) (hb : q.head? = some b) =>
    heads_agree_of_isPrefixOf hp hq ha hb
  have hiv : "image/".data.isPrefixOf (rustToLowercase mime) = true →
      "video/".data.isPrefixOf (rustToLowercase mime) = true → False := by
    intro h1 h2
    exact absurd (hagree h1 h2 rfl rfl) (by decide)
  have hid : "image/".data.isPrefixOf (rustToLowercase mime) = true →
      ("application/pdf".data.isPrefixOf (rustToLowercase mime)
        || "application/msword".data.isPrefixOf (rustToLowercase mime)
        || "application/vnd.openxmlformats".data.isPrefixOf (rustToLowercase mime)
        || "text/".data.isPrefixOf (rustToLowercase mime)) = true → False := by
    intro h1 h2
    simp only [Bool.or_eq_true] at h2
    rcases h2 with ((h2 | h2) | h2) | h2 <;>
      exact absurd (hagree h1 h2 rfl rfl) (by decide)
  have hvd : "video/".data.isPrefixOf (rustToLowercase mime) = true →
      ("application/pdf".data.isPrefixOf (rustToLowercase mime)
        || "application/msword".data.isPrefixOf (rustToLowercase mime)
        || "application/vnd.openxmlformats".data.isPrefixOf (rustToLowercase mime)
        || "text/".data.isPrefixOf (rustToLowercase mime)) = false := by
    intro h1
    cases hdb : ("application/pdf".data.isPrefixOf (rustToLowercase mime)
        || "application/msword".data.isPrefixOf (rustToLowercase mime)
        || "application/vnd.openxmlformats".data.isPrefixOf (rustToLowercase mime)
        || "text/".data.isPrefixOf (rustToLowercase mime)) with
    | false => rfl
    | true =>
      simp only [Bool.or_eq_true] at hdb
      rcases hdb with ((h2 | h2) | h2) | h2 <;>
        exact absurd (hagree h1 h2 rfl rfl) (by decide)
  have hpred : (∀ t : FileType, t.should_skip = true ↔ t = .unknown) ∧
      (∀ t : FileType, t.needs_interactive_processing = true ↔ t = .document) ∧
      (∀ t : FileType, t.is_auto_processable = true ↔
        (t = .image ∨ t = .video)) := by
    refine ⟨?_, ?_, ?_⟩ <;> intro t <;> cases t <;>
      simp [FileType.should_skip, FileType.needs_interactive_processing,
        FileType.is_auto_processable]
  cases h1 : "image/".data.isPrefixOf (rustToLowercase mime) with
  | true =>
    have hv : "video/".data.isPrefixOf (rustToLowercase mime) = false := by
      cases hvb : "video/".data.isPrefixOf (rustToLowercase mime) with
      | false => rfl
      | true => exact (hiv h1 hvb).elim
    have hd : ("application/pdf".data.isPrefixOf (rustToLowercase mime)
        || "application/msword".data.isPrefixOf (rustToLowercase mime)
        || "application/vnd.openxmlformats".data.isPrefixOf (rustToLowercase mime)
        || "text/".data.isPrefixOf (rustToLowercase mime)) = false := by
      cases hdb : ("application/pdf".data.isPrefixOf (rustToLowercase mime)
          || "application/msword".data.isPrefixOf (rustToLowercase mime)
          || "application/vnd.openxmlformats".data.isPrefixOf (rustToLowercase mime)
          || "text/".data.isPrefixOf (rustToLowercase mime)) with
      | false => rfl
      | true => exact (hid h1 hdb).elim
    refine ⟨?_, ?_, ?_, ?_, hpred.1, hpred.2.1, hpred.2.2⟩ <;>
      simp only [FileType.from_mime, h1, hv, hd, if_true] <;> simp
  | false =>
    cases h2 : "video/".data.isPrefixOf (rustToLowercase mime) with
    | true =>
      have hd := hvd h2
      refine ⟨?_, ?_, ?_, ?_, hpred.1, hpred.2.1, hpred.2.2⟩ <;>
        simp only [FileType.from_mime, h1, h2, hd] <;> simp
    | false =>
      cases h3 : ("application/pdf".data.isPrefixOf (rustToLowercase mime)
          || "application/msword".data.isPrefixOf (rustToLowercase mime)
          || "application/vnd.openxmlformats".data.isPrefixOf (rustToLowercase mime)
          || "text/".data.isPrefixOf (rustToLowercase mime)) with
      | true =>
        refine ⟨?_, ?_, ?_, ?_, hpred.1, hpred.2.1, hpred.2.2⟩ <;>
          simp only [FileType.from_mime, h1, h2, h3] <;> simp
      | false =>
        refine ⟨?_, ?_, ?_, ?_, hpred.1, hpred.2.1, hpred.2.2⟩ <;>
          simp only [FileType.from_mime, h1, h2, h3] <;> simp

/-- Witness for C8: `"IMAGE/JPEG"` is classified as an image through the
case-insensitive prefix test. -/
theorem from_mime_classification_witness :
    FileType.from_mime "IMAGE/JPEG".data = .image :=
  (from_mime_classification "IMAGE/JPEG".data).1.mpr (by decide)

/-! ## C6: document naming -/

/-- C6: on a valid input, `generate_name_from_input` returns exactly
`{date}_{description}@@{tag1,tag2,...}.{ext}` (witnessed by the quarterly
report example), and the generic `generate_name` contract on
`DocumentNamingStrategy` always fails with an input-required error. -/
theorem document_naming_strategy_contract :
    (∀ (input : DocumentInput) (ext : List Char), input.validate = .ok () →
      DocumentNamingStrategy.generate_name_from_input input ext =
        .ok (input.date ++ "_".data ++ input.description ++ "@@".data ++
          List.intercalate ",".data input.tags ++ ".".data ++ ext)) ∧
    (DocumentNamingStrategy.generate_name_from_input
        ⟨"2025-07-31".data, "quarterly-financial-report".data,
          ["finance".data, "reports".data]⟩ "pdf".data =
      .ok "2025-07-31_quarterly-financial-report@@finance,reports.pdf".data) ∧
    (∀ f : File, DocumentNamingStrategy.generate_name f =
      .error (.invalidUserInput
        "DocumentNamingStrategy requires user input via generate_name_from_input() method".data)) := by
  refine ⟨?_, by decide, fun f => rfl⟩
  intro input ext h
  rcases input with ⟨d, ds, tags⟩
  simp only [DocumentNamingStrategy.generate_name_from_input, h]
  cases tags with
  | nil => simp [List.intercalate]
  | cons t ts => simp [List.append_assoc]

/-- Witness for C6: the meeting-notes example from the repository's tests,
derived by applying the naming contract to a concretely validated input. -/
theorem document_naming_strategy_contract_witness :
    DocumentNamingStrategy.generate_name_from_input
        ⟨"2025-07-31".data, "meeting-notes".data, ["general".data]⟩
        "txt".data =
      .ok ("2025-07-31".data ++ "_".data ++ "meeting-notes".data ++
        "@@".data ++ List.intercalate ",".data ["general".data] ++
        ".".data ++ "txt".data) :=
  document_naming_strategy_contract.1
    ⟨"2025-07-31".data, "meeting-notes".data, ["general".data]⟩
    "txt".data (by decide)

/-! ## C5: duplicate resolution -/

/-- A single-component path either has no file name (and hence no stem),
or its file name is the whole component and a stem exists. -/
theorem rustFileStem_spec (target : List Char) :
    (FileHasher.rustFileNameOpt target = none ∧
      FileHasher.rustFileStem target = none) ∨
    (FileHasher.rustFileNameOpt target = some target ∧
      ∃ stem, FileHasher.rustFileStem target = some stem) := by
  by_cases h : target = [] ∨ target = ".".data ∨ target = "..".data
  · left
    constructor
    · simp [FileHasher.rustFileNameOpt, h]
    · simp [FileHasher.rustFileStem, FileHasher.rustFileNameOpt, h]
  · right
    have hname : FileHasher.rustFileNameOpt target = some target := by
      simp [FileHasher.rustFileNameOpt, h]
    refine ⟨hname, ?_⟩
    unfold FileHasher.rustFileStem
    rw [hname]
    rcases hdp : FileHasher.lastDotPos target with _ | i
    · exact ⟨target, by simp [hdp]⟩
    · exact ⟨target.take i, by simp [hdp]⟩

/-- C5: duplicate resolution runs only when the computed target path
already exists; Skip and Error fail with `FileAlreadyExists` (no state is
touched — the embedded resolver is a pure function of its inputs),
Overwrite returns the existing target unchanged, and AppendHash splices
the first `n` characters of the source content hash into the target as
`{stem}_{hash}.{ext}`, failing when the target name has no extension. -/
theorem handle_duplicate_policy (handling : DuplicateHandling) (n : Nat)
    (hres : Except CleanboxError (List Char)) (target : List Char) :
    (FileProcessor.resolveTarget false handling n hres target = .ok target) ∧
    (FileProcessor.resolveTarget true .skip n hres target =
      .error (.fileAlreadyExists target)) ∧
    (FileProcessor.resolveTarget true .error n hres target =
      .error (.fileAlreadyExists target)) ∧
    (FileProcessor.resolveTarget true .overwrite n hres target = .ok target) ∧
    (∀ hash stem ext, hres = .ok hash →
      FileHasher.rustFileStem target = some stem →
      FileHasher.rustExtension target = some ext →
      n ≤ hash.length →
      FileProcessor.resolveTarget true .appendHash n hres target =
        .ok (stem ++ "_".data ++ hash.take n ++ ".".data ++ ext)) ∧
    (∀ hash, hres = .ok hash →
      FileHasher.rustFileNameOpt target = some target →
      FileHasher.rustExtension target = none →
      FileProcessor.resolveTarget true .appendHash n hres target =
        .error (.invalidFileExtension target)) := by
  refine ⟨rfl, rfl, rfl, rfl, ?_, ?_⟩
  · intro hash stem ext hh hstem hext hn
    have hname : FileHasher.rustFileNameOpt target = some target := by
      rcases rustFileStem_spec target with ⟨_, hnone⟩ | ⟨hname, _⟩
      · rw [hnone] at hstem
        exact absurd hstem (by simp)
      · exact hname
    simp only [FileProcessor.resolveTarget, if_true,
      FileProcessor.handle_duplicate, hh, hname,
      FileHasher.append_hash_to_filename, hstem, hext,
      FileHasher.generate_hash_suffix]
    rw [min_eq_left hn]
  · intro hash hh hname hext
    rcases rustFileStem_spec target with ⟨hnone, _⟩ | ⟨_, stem, hstem⟩
    · rw [hname] at hnone
      exact absurd hnone (by simp)
    · simp only [FileProcessor.resolveTarget, if_true,
        FileProcessor.handle_duplicate, hh, hname,
        FileHasher.append_hash_to_filename, hstem, hext]

/-- Witness for C5: a colliding `target.jpg` under AppendHash with suffix
length 6 and source hash `abc123def` resolves to `target_abc123.jpg`. -/
theorem handle_duplicate_policy_witness :
    FileProcessor.resolveTarget true .appendHash 6 (.ok "abc123def".data)
        "target.jpg".data =
      .ok ("target".data ++ "_".data ++ "abc123def".data.take 6 ++
        ".".data ++ "jpg".data) :=
  (handle_duplicate_policy .appendHash 6 (.ok "abc123def".data)
    "target.jpg".data).2.2.2.2.1 "abc123def".data "target".data "jpg".data
    rfl (by decide) (by decide) (by decide)

/-! ## C3: media batch error accounting -/

/-- Closed form of the media loop: every failure is counted and recorded
in `errors`; the skip policy only filters the stderr log. -/
theorem mediaLoop_spec (skip : Bool)
    (files : List (List Char × Except CleanboxError Unit))
    (r : UnifiedProcessor.UnifiedProcessingResult) (log : List (List Char)) :
    UnifiedProcessor.mediaLoop skip files r log =
      ({ r with
          media_processed := r.media_processed +
            (UnifiedProcessor.mediaSuccesses files).length,
          files_failed := r.files_failed +
            (UnifiedProcessor.mediaFailures files).length,
          errors := r.errors ++ (UnifiedProcessor.mediaFailures files).map
            (fun f => errorMessage f.1 f.2) },
        log ++ ((UnifiedProcessor.mediaFailures files).filter
          (fun f => !UnifiedProcessor.should_skip_media_error skip f.2)).map
          (fun f => errorMessage f.1 f.2)) := by
  induction files generalizing r log with
  | nil =>
    simp [UnifiedProcessor.mediaLoop, UnifiedProcessor.mediaSuccesses,
      UnifiedProcessor.mediaFailures]
  | cons f rest ih =>
    rcases f with ⟨p, o⟩
    cases o with
    | ok u =>
      cases u
      simp only [UnifiedProcessor.mediaLoop]
      rw [ih]
      simp [UnifiedProcessor.mediaSuccesses, UnifiedProcessor.mediaFailures,
        List.filterMap_cons, Nat.add_assoc, Nat.add_comm, Nat.add_left_comm]
    | error e =>
      simp only [UnifiedProcessor.mediaLoop]
      rw [ih]
      cases hskip : UnifiedProcessor.should_skip_media_error skip e <;>
        simp [UnifiedProcessor.mediaSuccesses, UnifiedProcessor.mediaFailures,
          List.filterMap_cons, List.filter_cons, hskip, List.append_assoc,
          Nat.add_assoc, Nat.add_comm, Nat.add_left_comm]

/-- C3 counterexample: with the skip-unsupported policy enabled, a media
file failing with `UnsupportedFileType` is still counted in
`files_failed` and its message still lands in the aggregated
`UnifiedProcessingResult.errors`; only the stderr log stays empty. -/
theorem media_skippable_failure_still_recorded :
    UnifiedProcessor.process_media_files true
        [("inbox/archive.zip".data,
          .error (.unsupportedFileType "application/zip".data))]
        UnifiedProcessor.UnifiedProcessingResult.new =
      .ok (⟨0, 0, 0, 1,
        [errorMessage "inbox/archive.zip".data
          (.unsupportedFileType "application/zip".data)]⟩, []) := by
  decide

/-- C3 (amended): the media loop records every per-file failure — also the
skippable kinds under the skip policy — in `files_failed` and in the
aggregated error list; the skip policy only suppresses the immediate
stderr logging of skippable failures; and no individual error aborts the
batch (the function always returns `Ok` having visited every file). -/
theorem process_media_files_spec (skip : Bool)
    (files : List (List Char × Except CleanboxError Unit))
    (r : UnifiedProcessor.UnifiedProcessingResult) :
    UnifiedProcessor.process_media_files skip files r =
      .ok ({ r with
          media_processed := r.media_processed +
            (UnifiedProcessor.mediaSuccesses files).length,
          files_failed := r.files_failed +
            (UnifiedProcessor.mediaFailures files).length,
          errors := r.errors ++ (UnifiedProcessor.mediaFailures files).map
            (fun f => errorMessage f.1 f.2) },
        ((UnifiedProcessor.mediaFailures files).filter
          (fun f => !UnifiedProcessor.should_skip_media_error skip f.2)).map
          (fun f => errorMessage f.1 f.2)) := by
  unfold UnifiedProcessor.process_media_files
  rw [mediaLoop_spec]
  simp

/-! ## C4: directory batch error accounting -/

/-- Closed form of the per-file loop of `process_directory`. -/
theorem processLoop_spec (skip : Bool) (entries : List FileProcessor.DirEntry)
    (r : FileProcessor.ProcessingResult) :
    FileProcessor.processLoop skip entries r =
      { processed_files := r.processed_files +
          (entries.filter FileProcessor.entryOk).length,
        skipped_files := r.skipped_files +
          (entries.filter FileProcessor.entrySkippableErr).length,
        failed_files := r.failed_files +
          (entries.filter FileProcessor.entryFatalErr).length +
          (if skip then 0
           else (entries.filter FileProcessor.entrySkippableErr).length),
        errors := r.errors ++
          entries.filterMap (FileProcessor.reportedError skip) } := by
  induction entries generalizing r with
  | nil => simp [FileProcessor.processLoop]
  | cons entry rest ih =>
    cases entry with
    | notFile p =>
      simp only [FileProcessor.processLoop]
      rw [ih]
      simp [FileProcessor.entryOk, FileProcessor.entrySkippableErr,
        FileProcessor.entryFatalErr, FileProcessor.reportedError,
        List.filter_cons, List.filterMap_cons]
    | file p outcome =>
      cases outcome with
      | ok u =>
        cases u
        simp [FileProcessor.processLoop, ih, FileProcessor.entryOk,
          FileProcessor.entrySkippableErr, FileProcessor.entryFatalErr,
          FileProcessor.reportedError, List.filter_cons,
          List.filterMap_cons, Nat.add_assoc, Nat.add_comm,
          Nat.add_left_comm]
      | error e =>
        cases hse : FileProcessor.should_skip_error e with
        | true =>
          cases skip <;>
            simp [FileProcessor.processLoop, hse, ih,
              FileProcessor.ProcessingResult.add_error,
              FileProcessor.entryOk, FileProcessor.entrySkippableErr,
              FileProcessor.entryFatalErr, FileProcessor.reportedError,
              List.filter_cons, List.filterMap_cons, List.append_assoc,
              Nat.add_assoc, Nat.add_comm, Nat.add_left_comm]
        | false =>
          simp [FileProcessor.processLoop, hse, ih,
            FileProcessor.ProcessingResult.add_error,
            FileProcessor.entryOk, FileProcessor.entrySkippableErr,
            FileProcessor.entryFatalErr, FileProcessor.reportedError,
            List.filter_cons, List.filterMap_cons, List.append_assoc,
            Nat.add_assoc, Nat.add_comm, Nat.add_left_comm]

/-- C4: in `process_directory`, a skippable per-file error (unsupported
file type or Exif failure) increments the skipped counter and is appended
to `errors` (through `add_error`, which also bumps the failed counter)
exactly when `skip_unsupported_files` is false; every other per-file error
always increments the failed counter and is always appended; and no
per-file error aborts the batch, which visits every regular file of the
listing. -/
theorem process_directory_error_accounting (skip : Bool)
    (entries : List FileProcessor.DirEntry) :
    FileProcessor.process_directory skip (.ok entries) =
      .ok { processed_files := (entries.filter FileProcessor.entryOk).length,
            skipped_files :=
              (entries.filter FileProcessor.entrySkippableErr).length,
            failed_files :=
              (entries.filter FileProcessor.entryFatalErr).length +
              (if skip then 0
               else (entries.filter FileProcessor.entrySkippableErr).length),
            errors := entries.filterMap (FileProcessor.reportedError skip) } := by
  simp only [FileProcessor.process_directory]
  rw [processLoop_spec]
  simp [FileProcessor.ProcessingResult.new]

/-! ## C9: document loop cancellation and persistence -/

/-- `takeWhile` runs through a block that satisfies the predicate. -/
theorem takeWhile_append_of_all {α : Type} {p : α → Bool} (l1 l2 : List α)
    (h : ∀ x ∈ l1, p x = true) :
    (l1 ++ l2).takeWhile p = l1 ++ l2.takeWhile p := by
  induction l1 with
  | nil => simp
  | cons x xs ih =>
    have hx : p x = true := h x (by simp)
    simp only [List.cons_append, List.takeWhile_cons, hx]
    rw [ih fun y hy => h y (by simp [hy])]
    simp

/-- The document loop folds over the longest cancellation-free initial
segment of the events. -/
theorem docLoop_eq_foldl_takeWhile (events : List UnifiedProcessor.DocEvent)
    (r : UnifiedProcessor.UnifiedProcessingResult) :
    UnifiedProcessor.docLoop events r =
      (events.takeWhile UnifiedProcessor.notCancelled).foldl
        UnifiedProcessor.docStep r := by
  induction events generalizing r with
  | nil => rfl
  | cons ev rest ih =>
    cases hcol : ev.collect with
    | ok u =>
      cases u
      have hnc : UnifiedProcessor.notCancelled ev = true := by
        simp [UnifiedProcessor.notCancelled, hcol]
      rcases hproc : ev.processDoc with e | u
      · simp [UnifiedProcessor.docLoop, hcol, hproc, List.takeWhile_cons,
          hnc, UnifiedProcessor.docStep, ih]
      · cases u
        simp [UnifiedProcessor.docLoop, hcol, hproc, List.takeWhile_cons,
          hnc, UnifiedProcessor.docStep, ih]
    | error e =>
      by_cases he : e = CleanboxError.userCancelled
      · subst he
        have hnc : UnifiedProcessor.notCancelled ev = false := by
          simp [UnifiedProcessor.notCancelled, hcol]
        simp [UnifiedProcessor.docLoop, hcol, List.takeWhile_cons, hnc]
      · have hnc : UnifiedProcessor.notCancelled ev = true := by
          simp [UnifiedProcessor.notCancelled, hcol, he]
        cases e <;>
          simp_all [UnifiedProcessor.docLoop, List.takeWhile_cons,
            UnifiedProcessor.docStep]

/-- C9: a `UserCancelled` from input collection stops the document loop —
events after the first cancellation contribute nothing to the counters or
errors — and the tag dictionary is saved exactly once after the loop
completes, also when the loop ended early or individual documents
failed. -/
theorem process_document_files_cancellation
    (saveResult : Except CleanboxError Unit)
    (events : List UnifiedProcessor.DocEvent)
    (r0 : UnifiedProcessor.UnifiedProcessingResult) :
    (UnifiedProcessor.process_document_files (.ok ()) saveResult events r0 =
      ⟨(events.takeWhile UnifiedProcessor.notCancelled).foldl
         UnifiedProcessor.docStep r0, 1, saveResult⟩) ∧
    (∀ pre ev post, (∀ x ∈ pre, UnifiedProcessor.notCancelled x = true) →
      UnifiedProcessor.notCancelled ev = false →
      UnifiedProcessor.docLoop (pre ++ ev :: post) r0 =
        UnifiedProcessor.docLoop pre r0) := by
  constructor
  · unfold UnifiedProcessor.process_document_files
    rw [docLoop_eq_foldl_takeWhile]
    cases saveResult with
    | ok u => cases u; rfl
    | error e => rfl
  · intro pre ev post hpre hev
    rw [docLoop_eq_foldl_takeWhile, docLoop_eq_foldl_takeWhile]
    rw [takeWhile_append_of_all pre (ev :: post) hpre]
    rw [List.takeWhile_cons, hev]
    rw [List.takeWhile_eq_self_iff.mpr hpre]
    simp

/-- Witness for C9: one successfully collected and processed document,
then a cancellation, then another document; the third file never affects
the result. -/
theorem process_document_files_cancellation_witness :
    UnifiedProcessor.docLoop
        [⟨"a.pdf".data, .ok (), .ok ()⟩,
         ⟨"b.pdf".data, .error .userCancelled, .ok ()⟩,
         ⟨"c.pdf".data, .ok (), .ok ()⟩]
        UnifiedProcessor.UnifiedProcessingResult.new =
      UnifiedProcessor.docLoop [⟨"a.pdf".data, .ok (), .ok ()⟩]
        UnifiedProcessor.UnifiedProcessingResult.new :=
  (process_document_files_cancellation (.ok ()) []
      UnifiedProcessor.UnifiedProcessingResult.new).2
    [⟨"a.pdf".data, .ok (), .ok ()⟩]
    ⟨"b.pdf".data, .error .userCancelled, .ok ()⟩
    [⟨"c.pdf".data, .ok (), .ok ()⟩]
    (by decide) (by decide)

/-! ## C7 and C10: tag dictionary persistence -/

/-- Every error produced by `validate_tag_format` is an
`InvalidUserInput`. -/
theorem validate_tag_format_error_kind {t : List Char} {e : CleanboxError}
    (h : TagDictionary.validate_tag_format t = .error e) :
    ∃ m, e = .invalidUserInput m := by
  unfold TagDictionary.validate_tag_format at h
  split_ifs at h <;> simp only [Except.error.injEq] at h <;>
    exact ⟨_, h.symm⟩

/-- A tag accepted by `validate_tag_format` is non-empty and made of
lowercase ASCII letters, digits and hyphens. -/
theorem validate_tag_format_ok_shape {t : List Char}
    (h : TagDictionary.validate_tag_format t = .ok ()) :
    t ≠ [] ∧ (t.all fun c => c.isLower || c.isDigit || c == '-') = true := by
  by_cases h1 : t = []
  · rw [TagDictionary.validate_tag_format, if_pos h1] at h
    exact absurd h (by simp)
  · cases hall : (t.all fun c => c.isLower || c.isDigit || c == '-') with
    | false =>
      rw [TagDictionary.validate_tag_format, if_neg h1,
        if_pos (by simp [hall])] at h
      exact absurd h (by simp)
    | true => exact ⟨h1, rfl⟩

/-- Kebab-case characters are neither newlines nor carriage returns. -/
theorem kebab_char_not_line_break {c : Char}
    (h : (c.isLower || c.isDigit || (c == '-')) = true) :
    c ≠ '\n' ∧ c ≠ '\r' := by
  constructor <;> rintro rfl <;> exact absurd h (by decide)

theorem mem_of_getLast?_eq {α : Type} {l : List α} {c : α}
    (h : l.getLast? = some c) : c ∈ l := by
  induction l with
  | nil => simp at h
  | cons a t ih =>
    cases t with
    | nil =>
      simp only [List.getLast?_singleton, Option.some.injEq] at h
      simp [h]
    | cons b t2 =>
      rw [List.getLast?_cons_cons] at h
      exact List.mem_cons_of_mem _ (ih h)

theorem splitOnAux_ne_nil (sep : Char) (s acc : List Char) :
    splitOnAux sep s acc ≠ [] := by
  induction s generalizing acc with
  | nil => simp [splitOnAux]
  | cons c rest ih =>
    by_cases hc : c = sep <;> simp [splitOnAux, hc, ih]

theorem splitOnAux_append_sep (sep : Char) (t rest acc : List Char)
    (h : sep ∉ t) :
    splitOnAux sep (t ++ sep :: rest) acc =
      (acc.reverse ++ t) :: splitOnAux sep rest [] := by
  induction t generalizing acc with
  | nil => simp [splitOnAux]
  | cons c t2 ih =>
    have hc : ¬ (c = sep) := fun hcs => h (by simp [hcs])
    simp only [List.cons_append, splitOnAux, if_neg hc, List.append_eq]
    rw [ih (c :: acc) fun hm => h (by simp [hm])]
    simp

/-- `rustLines` inverts the save-side join for newline-free lines with a
trailing newline appended. -/
theorem rustLines_joinNl (l : List (List Char)) (hne : l ≠ [])
    (hchars : ∀ t ∈ l, '\n' ∉ t ∧ t.getLast? ≠ some '\r') :
    rustLines (TagDictionary.joinNl l ++ "\n".data) = l := by
  induction l with
  | nil => exact absurd rfl hne
  | cons t ts ih =>
    have ht := hchars t (by simp)
    have hstrip : stripTrailingCR t = t := by
      unfold stripTrailingCR
      rw [if_neg ht.2]
    cases ts with
    | nil =>
      show rustLines (t ++ ['\n']) = [t]
      have hsplit : splitOnChar '\n' (t ++ ['\n']) = [t] ++ [[]] := by
        unfold splitOnChar
        rw [show t ++ ['\n'] = t ++ '\n' :: [] from rfl]
        rw [splitOnAux_append_sep '\n' t [] [] ht.1]
        simp [splitOnAux]
      unfold rustLines
      rw [if_neg (by simp), hsplit, List.getLast?_concat, if_pos rfl,
        List.dropLast_concat]
      simp [hstrip]
    | cons u ts2 =>
      have hcontent : TagDictionary.joinNl (t :: u :: ts2) ++ "\n".data =
          t ++ '\n' :: (TagDictionary.joinNl (u :: ts2) ++ "\n".data) := by
        show (t ++ '\n' :: TagDictionary.joinNl (u :: ts2)) ++ "\n".data = _
        simp
      have hih := ih (by simp) fun x hx => hchars x (by simp [hx])
      have hZne : TagDictionary.joinNl (u :: ts2) ++ "\n".data ≠ [] := by
        simp
      unfold rustLines at hih
      rw [if_neg hZne] at hih
      unfold rustLines
      rw [if_neg (by rw [hcontent]; simp)]
      rw [hcontent]
      unfold splitOnChar
      rw [splitOnAux_append_sep '\n' t _ [] ht.1]
      simp only [List.nil_append]
      unfold splitOnChar at hih
      rcases hparts : splitOnAux '\n' (TagDictionary.joinNl (u :: ts2) ++
          "\n".data) [] with _ | ⟨p, ps⟩
      · exact absurd hparts (splitOnAux_ne_nil _ _ _)
      · rw [hparts] at hih
        simp only [List.reverse_nil, List.nil_append]
        rw [List.getLast?_cons_cons]
        by_cases hlast : (p :: ps).getLast? = some []
        · rw [if_pos hlast] at hih ⊢
          show (t :: (p :: ps).dropLast).map stripTrailingCR = t :: u :: ts2
          rw [List.map_cons, hstrip, hih]
        · rw [if_neg hlast] at hih ⊢
          rw [List.map_cons, hstrip, hih]

/-- The line loop of `load_from_file` succeeds exactly when every line
that is non-empty after trimming passes tag validation. -/
theorem load_lines_ok_iff (lines : List (List Char))
    (acc : List (List Char)) :
    (∃ l, TagDictionary.load_lines lines acc = .ok l) ↔
      ∀ line ∈ lines, rustTrim line ≠ [] →
        TagDictionary.validate_tag_format (rustTrim line) = .ok () := by
  induction lines generalizing acc with
  | nil => simp [TagDictionary.load_lines]
  | cons line rest ih =>
    by_cases ht : rustTrim line = []
    · simp [TagDictionary.load_lines, ht, ih, List.forall_mem_cons]
    · rcases hv : TagDictionary.validate_tag_format (rustTrim line)
          with e | u
      · simp [TagDictionary.load_lines, ht, hv, List.forall_mem_cons]
      · cases u
        simp [TagDictionary.load_lines, ht, hv, ih, List.forall_mem_cons]

/-- Tags produced by a successful load are trimmed non-empty lines of the
input that pass validation. -/
theorem load_lines_mem (lines : List (List Char)) :
    ∀ (acc l : List (List Char)),
      TagDictionary.load_lines lines acc = .ok l →
      ∀ t ∈ l, t ∈ acc ∨
        ((∃ line ∈ lines, rustTrim line = t) ∧ t ≠ [] ∧
          TagDictionary.validate_tag_format t = .ok ()) := by
  induction lines with
  | nil =>
    intro acc l h t htl
    left
    simp only [TagDictionary.load_lines, Except.ok.injEq] at h
    rw [h]
    exact htl
  | cons line rest ih =>
    intro acc l h t htl
    by_cases htr : rustTrim line = []
    · simp only [TagDictionary.load_lines, htr, if_pos rfl] at h
      rcases ih acc l (by simpa [htr] using h) t htl with hacc | ⟨⟨ln, hln, he⟩, hr⟩
      · exact Or.inl hacc
      · exact Or.inr ⟨⟨ln, by simp [hln], he⟩, hr⟩
    · rcases hv : TagDictionary.validate_tag_format (rustTrim line)
          with e | u
      · rw [TagDictionary.load_lines] at h
        rw [if_neg htr, hv] at h
        exact absurd h (by simp)
      · cases u
        rw [TagDictionary.load_lines] at h
        rw [if_neg htr, hv] at h
        rcases ih _ l h t htl with hacc | ⟨⟨ln, hln, he⟩, hr⟩
        · unfold TagDictionary.insertTag at hacc
          by_cases hmem : rustTrim line ∈ acc
          · rw [if_pos hmem] at hacc
            exact Or.inl hacc
          · rw [if_neg hmem] at hacc
            rcases List.mem_append.mp hacc with h1 | h2
            · exact Or.inl h1
            · have : t = rustTrim line := by simpa using h2
              exact Or.inr ⟨⟨line, by simp, this.symm⟩, by rw [this]; exact ⟨htr, hv⟩⟩
        · exact Or.inr ⟨⟨ln, by simp [hln], he⟩, hr⟩

/-- If some trimmed non-empty line fails validation, the load loop fails,
and with an `InvalidUserInput` error. -/
theorem load_lines_invalid (lines : List (List Char)) :
    ∀ acc : List (List Char),
      (∃ line ∈ lines, rustTrim line ≠ [] ∧
        TagDictionary.validate_tag_format (rustTrim line) ≠ .ok ()) →
      ∃ m, TagDictionary.load_lines lines acc =
        .error (.invalidUserInput m) := by
  induction lines with
  | nil => simp
  | cons line rest ih =>
    intro acc hex
    by_cases htr : rustTrim line = []
    · have hrest : ∃ ln ∈ rest, rustTrim ln ≠ [] ∧
          TagDictionary.validate_tag_format (rustTrim ln) ≠ .ok () := by
        rcases hex with ⟨ln, hmem, hln⟩
        rcases List.mem_cons.mp hmem with rfl | hmem2
        · exact absurd htr hln.1
        · exact ⟨ln, hmem2, hln⟩
      rcases ih acc hrest with ⟨m, hm⟩
      refine ⟨m, ?_⟩
      rw [TagDictionary.load_lines, if_pos htr]
      exact hm
    · rcases hv : TagDictionary.validate_tag_format (rustTrim line)
          with e | u
      · rcases validate_tag_format_error_kind hv with ⟨m, rfl⟩
        refine ⟨m, ?_⟩
        rw [TagDictionary.load_lines, if_neg htr, hv]
      · cases u
        have hrest : ∃ ln ∈ rest, rustTrim ln ≠ [] ∧
            TagDictionary.validate_tag_format (rustTrim ln) ≠ .ok () := by
          rcases hex with ⟨ln, hmem, hln⟩
          rcases List.mem_cons.mp hmem with rfl | hmem2
          · exact absurd hv hln.2
          · exact ⟨ln, hmem2, hln⟩
        rcases ih (TagDictionary.insertTag acc (rustTrim line)) hrest
          with ⟨m, hm⟩
        refine ⟨m, ?_⟩
        rw [TagDictionary.load_lines, if_neg htr, hv]
        exact hm

/-- C7 counterexample: a persisted line failing tag validation makes
`load_from_file` fail with an `InvalidUserInput` error — not with the
tag-dictionary-corrupted error the claim names (that error is reserved for
file read/write failures). -/
theorem load_invalid_line_is_invalid_user_input :
    TagDictionary.load_from_content "Finance\n".data =
      .error (.invalidUserInput
        ("Tag must be in kebab-case (lowercase, numbers, hyphens only): ".data
          ++ "Finance".data)) := by
  decide

/-- C7 (amended): `save_to_file` writes one validated tag per line, sorted
alphabetically, with a trailing newline; and `load_from_file` fails —
with an invalid-user-input error — whenever some line that is non-empty
after trimming fails tag-format validation. -/
theorem tags_persistence_round_trip :
    (∀ tags : List (List Char), tags ≠ [] →
      (∀ t ∈ tags, TagDictionary.validate_tag_format t = .ok ()) →
      rustLines (TagDictionary.save_content tags) = tags.mergeSort listLe ∧
      List.Pairwise (fun a b => listLe a b = true)
        (rustLines (TagDictionary.save_content tags)) ∧
      (∀ t ∈ rustLines (TagDictionary.save_content tags),
        TagDictionary.validate_tag_format t = .ok ()) ∧
      (TagDictionary.save_content tags).getLast? = some '\n') ∧
    (∀ content : List Char,
      (∃ line ∈ rustLines content, rustTrim line ≠ [] ∧
        TagDictionary.validate_tag_format (rustTrim line) ≠ .ok ()) →
      ∃ m, TagDictionary.load_from_content content =
        .error (.invalidUserInput m)) := by
  constructor
  · intro tags hne hvalid
    have hchars : ∀ t ∈ tags.mergeSort listLe,
        '\n' ∉ t ∧ t.getLast? ≠ some '\r' := by
      intro t htm
      have hv := hvalid t (List.mem_mergeSort.mp htm)
      have hall := (validate_tag_format_ok_shape hv).2
      rw [List.all_eq_true] at hall
      constructor
      · intro hnl
        exact absurd (hall _ hnl) (by decide)
      · intro hlast
        have hm := mem_of_getLast?_eq hlast
        exact (kebab_char_not_line_break (hall _ hm)).2 rfl
    have hmerne : tags.mergeSort listLe ≠ [] := by
      intro h0
      have := (List.mergeSort_perm tags listLe).length_eq
      rw [h0] at this
      exact hne (List.length_eq_zero.mp this.symm)
    have hlines : rustLines (TagDictionary.save_content tags) =
        tags.mergeSort listLe :=
      rustLines_joinNl (tags.mergeSort listLe) hmerne hchars
    refine ⟨hlines, ?_, ?_, ?_⟩
    · rw [hlines]
      exact List.sorted_mergeSort listLe_trans listLe_total tags
    · intro t htm
      rw [hlines] at htm
      exact hvalid t (List.mem_mergeSort.mp htm)
    · exact List.getLast?_concat _
  · intro content hex
    exact load_lines_invalid (rustLines content) [] hex

/-- Witness for C7: a file whose only line is invalid fails to load with
an invalid-user-input error. -/
theorem tags_persistence_round_trip_witness :
    ∃ m, TagDictionary.load_from_content "bad tag\n".data =
      .error (.invalidUserInput m) :=
  tags_persistence_round_trip.2 "bad tag\n".data (by decide)

/-- C10: `load_from_file` trims each line, silently skips lines that are
blank after trimming, and requires only the remaining trimmed lines to
pass validation; every loaded tag is a trimmed non-empty validated line of
the file. -/
theorem load_trims_and_skips_blank_lines (content : List Char) :
    ((∃ l, TagDictionary.load_from_content content = .ok l) ↔
      ∀ line ∈ rustLines content, rustTrim line ≠ [] →
        TagDictionary.validate_tag_format (rustTrim line) = .ok ()) ∧
    (∀ l, TagDictionary.load_from_content content = .ok l →
      ∀ t ∈ l, (∃ line ∈ rustLines content, rustTrim line = t) ∧ t ≠ [] ∧
        TagDictionary.validate_tag_format t = .ok ()) := by
  constructor
  · exact load_lines_ok_iff (rustLines content) []
  · intro l h t htl
    rcases load_lines_mem (rustLines content) [] l h t htl with hacc | hok
    · exact absurd hacc (by simp)
    · exact ⟨hok.1, hok.2⟩

/-- Witness for C10: a tags file with a blank line between two valid tags
still loads. -/
theorem load_trims_and_skips_blank_lines_witness :
    ∃ l, TagDictionary.load_from_content "finance\n\nreports\n".data =
      .ok l :=
  (load_trims_and_skips_blank_lines "finance\n\nreports\n".data).1.mpr
    (by decide)

/-! ## C1: fuzzy tag matching -/

/-- C1 counterexample: on the dictionary `{"ax"}` and query `"ab"`, the
spec's edit-distance scoring (modelled by `find_similar_claim`) yields
`"ax"` with similarity `1 − 1/2 = 0.5 > 0.3`, but the code's
`find_similar` — plain prefix/substring matching — returns nothing. -/
theorem find_similar_not_edit_distance :
    TagDictionary.find_similar ["ax".data] "ab".data 5 = [] ∧
    find_similar_claim ["ax".data] "ab".data 5 = [("ax".data, 1/2)] := by
  constructor
  · rw [TagDictionary.find_similar]
    rw [if_neg (by decide)]
    simp only [List.filterMap_cons, List.filterMap_nil]
    simp [show ("ab".data.isPrefixOf "ax".data) = false from by decide,
      show findSubByte "ab".data "ax".data = none from by decide]
  · have hsim : claimSimilarity "ab".data "ax".data = 1/2 := by
      have hlev : lev "ab".data "ax".data = 1 := by simp [lev]
      have h1 : rustLen "ab".data = 2 := by decide
      have h2 : rustLen "ax".data = 2 := by decide
      rw [claimSimilarity, hlev, h1, h2]
      rw [show ("ab".data.isPrefixOf "ax".data) = false from by decide]
      rw [show containsStr ('-' :: "ab".data) "ax".data = false from by decide]
      rw [show findSubByte "ab".data "ax".data = none from by decide]
      norm_num
    rw [find_similar_claim]
    rw [if_neg (by decide)]
    simp only [List.filterMap_cons, List.filterMap_nil, hsim]
    rw [if_pos (by norm_num)]
    simp [List.mergeSort_singleton]

theorem tagLe_trans : ∀ a b c : TagDictionary.SimilarTag,
    TagDictionary.tagLe a b = true → TagDictionary.tagLe b c = true →
    TagDictionary.tagLe a c = true :=
  fun a b c hab hbc => listLe_trans a.tag b.tag c.tag hab hbc

theorem tagLe_total : ∀ a b : TagDictionary.SimilarTag,
    (TagDictionary.tagLe a b || TagDictionary.tagLe b a) = true :=
  fun a b => listLe_total a.tag b.tag

/-- A `filterMap` whose function is some exactly on a predicate keeps as
many elements as the corresponding `filter`. -/
theorem length_filterMap_eq_length_filter {α β : Type} (f : α → Option β)
    (p : α → Bool) (l : List α) (h : ∀ a, (f a).isSome = p a) :
    (l.filterMap f).length = (l.filter p).length := by
  induction l with
  | nil => rfl
  | cons a t ih =>
    rw [List.filterMap_cons, List.filter_cons]
    cases hfa : f a with
    | none =>
      have hp : p a = false := by rw [← h a, hfa]; rfl
      simp [hfa, hp, ih]
    | some b =>
      have hp : p a = true := by rw [← h a, hfa]; rfl
      simp [hfa, hp, ih]

/-- C1 (amended): `find_similar` does prefix/substring matching, not
edit-distance scoring.  An empty query returns no results; the result
holds exactly the first `max_results` of the matches (its length is the
number of prefix matches plus the number of substring matches, truncated
at `max_results`, and when that total fits, every matching tag appears);
every result is a dictionary tag that either starts with the query
(similarity `1.0`, distance `0`) or contains it (similarity `0.5`,
distance the byte index of the first occurrence); and results are ordered
by similarity descending with ties — within the prefix group and within
the substring group — ordered alphabetically. -/
theorem find_similar_behaviour (tags : List (List Char)) (query : List Char)
    (n : Nat) :
    (query = [] → TagDictionary.find_similar tags query n = []) ∧
    (query ≠ [] →
      (TagDictionary.find_similar tags query n).length =
        min n ((tags.filter fun t => query.isPrefixOf t).length +
          (tags.filter fun t =>
            !query.isPrefixOf t && containsStr query t).length)) ∧
    (∀ s ∈ TagDictionary.find_similar tags query n, s.tag ∈ tags ∧
      ((query.isPrefixOf s.tag = true ∧ s.similarity = 1 ∧ s.distance = 0) ∨
       (query.isPrefixOf s.tag = false ∧
         findSubByte query s.tag = some s.distance ∧ s.similarity = 1/2))) ∧
    (query ≠ [] → ∀ t ∈ tags,
      (query.isPrefixOf t || (!query.isPrefixOf t && containsStr query t)) =
        true →
      (tags.filter fun t => query.isPrefixOf t).length +
        (tags.filter fun t =>
          !query.isPrefixOf t && containsStr query t).length ≤ n →
      ∃ s ∈ TagDictionary.find_similar tags query n, s.tag = t) ∧
    List.Pairwise (fun a b : TagDictionary.SimilarTag =>
      b.similarity ≤ a.similarity ∧
      (a.similarity = b.similarity → listLe a.tag b.tag = true))
      (TagDictionary.find_similar tags query n) := by
  by_cases hq : query = []
  · subst hq
    have hempty : ∀ m : Nat, TagDictionary.find_similar tags [] m = [] := by
      intro m
      simp [TagDictionary.find_similar]
    refine ⟨fun _ => hempty n, fun h => absurd rfl h, ?_,
      fun h => absurd rfl h, ?_⟩
    · intro s hs
      rw [hempty n] at hs
      exact absurd hs (List.not_mem_nil s)
    · rw [hempty n]
      exact List.Pairwise.nil
  · have hpm : ∀ s ∈ (tags.filterMap fun t =>
        if query.isPrefixOf t then
          some (⟨t, 0, 1⟩ : TagDictionary.SimilarTag) else none).mergeSort
        TagDictionary.tagLe,
        s.tag ∈ tags ∧ query.isPrefixOf s.tag = true ∧ s.similarity = 1 ∧
          s.distance = 0 := by
      intro s hs
      rw [List.mem_mergeSort] at hs
      rcases List.mem_filterMap.mp hs with ⟨t, ht, heq⟩
      by_cases hp : query.isPrefixOf t
      · rw [if_pos hp] at heq
        simp only [Option.some.injEq] at heq
        subst heq
        exact ⟨ht, hp, rfl, rfl⟩
      · rw [if_neg hp] at heq
        exact absurd heq (by simp)
    have hsm : ∀ s ∈ (tags.filterMap fun t =>
        if query.isPrefixOf t then none
        else
          match findSubByte query t with
          | some i => some (⟨t, i, 1/2⟩ : TagDictionary.SimilarTag)
          | none => none).mergeSort TagDictionary.tagLe,
        s.tag ∈ tags ∧ query.isPrefixOf s.tag = false ∧
          findSubByte query s.tag = some s.distance ∧ s.similarity = 1/2 := by
      intro s hs
      rw [List.mem_mergeSort] at hs
      rcases List.mem_filterMap.mp hs with ⟨t, ht, heq⟩
      by_cases hp : query.isPrefixOf t
      · rw [if_pos hp] at heq
        exact absurd heq (by simp)
      · have hp2 : query.isPrefixOf t = false := by
          cases hpv : query.isPrefixOf t with
          | true => exact absurd hpv hp
          | false => rfl
        rw [if_neg hp] at heq
        rcases hf : findSubByte query t with _ | i
        · rw [hf] at heq
          exact absurd heq (by simp)
        · rw [hf] at heq
          simp only [Option.some.injEq] at heq
          subst heq
          exact ⟨ht, hp2, hf, rfl⟩
    have hexp : TagDictionary.find_similar tags query n =
        ((tags.filterMap fun t =>
          if query.isPrefixOf t then
            some (⟨t, 0, 1⟩ : TagDictionary.SimilarTag) else none).mergeSort
          TagDictionary.tagLe ++
        (tags.filterMap fun t =>
          if query.isPrefixOf t then none
          else
            match findSubByte query t with
            | some i => some (⟨t, i, 1/2⟩ : TagDictionary.SimilarTag)
            | none => none).mergeSort TagDictionary.tagLe).take n := by
      rw [TagDictionary.find_similar, if_neg hq]
      try rfl
    have hpmlen : ((tags.filterMap fun t =>
        if query.isPrefixOf t then
          some (⟨t, 0, 1⟩ : TagDictionary.SimilarTag) else none).mergeSort
        TagDictionary.tagLe).length =
        (tags.filter fun t => query.isPrefixOf t).length := by
      rw [(List.mergeSort_perm _ _).length_eq]
      exact length_filterMap_eq_length_filter _ _ _ fun a => by
        by_cases hp : query.isPrefixOf a <;> simp [hp]
    have hsmlen : ((tags.filterMap fun t =>
        if query.isPrefixOf t then none
        else
          match findSubByte query t with
          | some i => some (⟨t, i, 1/2⟩ : TagDictionary.SimilarTag)
          | none => none).mergeSort TagDictionary.tagLe).length =
        (tags.filter fun t =>
          !query.isPrefixOf t && containsStr query t).length := by
      rw [(List.mergeSort_perm _ _).length_eq]
      refine length_filterMap_eq_length_filter _ _ _ fun a => ?_
      by_cases hp : query.isPrefixOf a
      · simp [hp]
      · rcases hf : findSubByte query a with _ | i <;>
          simp [hp, hf, containsStr]
    refine ⟨fun h => absurd h hq, ?_, ?_, ?_, ?_⟩
    · intro _
      rw [hexp, List.length_take, List.length_append, hpmlen, hsmlen]
    · intro s hs
      rw [hexp] at hs
      have hs2 := (List.take_sublist n _).subset hs
      rcases List.mem_append.mp hs2 with h1 | h2
      · rcases hpm s h1 with ⟨ht, hp, hsim, hd⟩
        exact ⟨ht, Or.inl ⟨hp, hsim, hd⟩⟩
      · rcases hsm s h2 with ⟨ht, hp, hf, hsim⟩
        exact ⟨ht, Or.inr ⟨hp, hf, hsim⟩⟩
    · intro _ t ht hmatch hle
      have hlenL : (((tags.filterMap fun t =>
          if query.isPrefixOf t then
            some (⟨t, 0, 1⟩ : TagDictionary.SimilarTag) else none).mergeSort
          TagDictionary.tagLe) ++
          ((tags.filterMap fun t =>
            if query.isPrefixOf t then none
            else
              match findSubByte query t with
              | some i => some (⟨t, i, 1/2⟩ : TagDictionary.SimilarTag)
              | none => none).mergeSort TagDictionary.tagLe)).length ≤ n := by
        rw [List.length_append, hpmlen, hsmlen]
        exact hle
      rw [hexp, List.take_of_length_le hlenL]
      simp only [Bool.or_eq_true] at hmatch
      rcases hmatch with hp | hps
      · refine ⟨⟨t, 0, 1⟩, List.mem_append.mpr (Or.inl ?_), rfl⟩
        rw [List.mem_mergeSort]
        exact List.mem_filterMap.mpr ⟨t, ht, by rw [if_pos hp]⟩
      · simp only [Bool.and_eq_true] at hps
        have hp2 := hps.1
        have hcont := hps.2
        have hp3 : query.isPrefixOf t = false := by
          cases hv : query.isPrefixOf t
          · rfl
          · rw [hv] at hp2
            exact absurd hp2 (by decide)
        rcases Option.isSome_iff_exists.mp hcont with ⟨i, hi⟩
        refine ⟨⟨t, i, 1/2⟩, List.mem_append.mpr (Or.inr ?_), rfl⟩
        rw [List.mem_mergeSort]
        exact List.mem_filterMap.mpr ⟨t, ht,
          by rw [if_neg (by simp [hp3]), hi]⟩
    · rw [hexp]
      refine List.Pairwise.sublist (List.take_sublist n _) ?_
      rw [List.pairwise_append]
      have hsortpm := List.sorted_mergeSort tagLe_trans tagLe_total
        (tags.filterMap fun t =>
          if query.isPrefixOf t then
            some (⟨t, 0, 1⟩ : TagDictionary.SimilarTag) else none)
      have hsortsm := List.sorted_mergeSort tagLe_trans tagLe_total
        (tags.filterMap fun t =>
          if query.isPrefixOf t then none
          else
            match findSubByte query t with
            | some i => some (⟨t, i, 1/2⟩ : TagDictionary.SimilarTag)
            | none => none)
      refine ⟨?_, ?_, ?_⟩
      · refine hsortpm.imp_of_mem fun ha hb hr => ?_
        exact ⟨by rw [(hpm _ ha).2.2.1, (hpm _ hb).2.2.1], fun _ => hr⟩
      · refine hsortsm.imp_of_mem fun ha hb hr => ?_
        exact ⟨by rw [(hsm _ ha).2.2.2, (hsm _ hb).2.2.2], fun _ => hr⟩
      · intro a ha b hb
        refine ⟨by rw [(hpm _ ha).2.2.1, (hsm _ hb).2.2.2]; norm_num,
          fun heq => ?_⟩
        rw [(hpm _ ha).2.2.1, (hsm _ hb).2.2.2] at heq
        exact absurd heq (by norm_num)

/-- Witness for C1: the spec's own §8 instance — querying `"re"` over
`{receipt, legacy, career, finance}` with `max_results = 3` — has room
for every match, so `"receipt"` appears in the result; all hypotheses of
the completeness clause are discharged by evaluation. -/
theorem find_similar_behaviour_witness :
    ∃ s ∈ TagDictionary.find_similar
      ["receipt".data, "legacy".data, "career".data, "finance".data]
      "re".data 3, s.tag = "receipt".data :=
  (find_similar_behaviour
      ["receipt".data, "legacy".data, "career".data, "finance".data]
      "re".data 3).2.2.2.1 (by decide) "receipt".data (by decide)
    (by decide) (by decide)

/-! ## C2: date validation -/

theorem char_isDigit_bounds {c : Char} (h : c.isDigit = true) :
    48 ≤ c.toNat ∧ c.toNat ≤ 57 := by
  simp [Char.isDigit] at h
  exact ⟨h.1, h.2⟩

theorem digit_utf8 {c : Char} (h : c.isDigit = true) : utf8CharLen c = 1 := by
  have hb := char_isDigit_bounds h
  unfold utf8CharLen
  rw [if_pos (by omega)]

theorem digit_ne_dash {c : Char} (h : c.isDigit = true) : ¬ (c = '-') := by
  intro he
  rw [he] at h
  exact absurd h (by decide)

theorem digit_ne_plus {c : Char} (h : c.isDigit = true) : ¬ (c = '+') := by
  intro he
  rw [he] at h
  exact absurd h (by decide)

theorem splitOnAux_no_sep (sep : Char) (t : List Char) :
    ∀ acc, sep ∉ t → splitOnAux sep t acc = [acc.reverse ++ t] := by
  induction t with
  | nil => intro acc h; simp [splitOnAux]
  | cons c t2 ih =>
    intro acc h
    have hc : ¬ (c = sep) := fun hcs => h (by simp [hcs])
    simp only [splitOnAux, if_neg hc]
    rw [ih (c :: acc) fun hm => h (by simp [hm])]
    simp

/-- `parse::<u32>()` on a non-empty all-digit string returns its decimal
value when it fits in `u32`. -/
theorem parseU32_digits (ds : List Char) (h0 : ds ≠ [])
    (hd : ∀ c ∈ ds, c.isDigit = true)
    (hv : ds.foldl (fun a c => a * 10 + (c.toNat - 48)) 0 < 4294967296) :
    parseU32 ds = some (ds.foldl (fun a c => a * 10 + (c.toNat - 48)) 0) := by
  unfold parseU32
  have hhead : ¬ (ds.head? = some '+') := by
    cases ds with
    | nil => simp
    | cons c t =>
      simp only [List.head?_cons, Option.some.injEq]
      exact digit_ne_plus (hd c (by simp))
  rw [if_neg hhead, if_neg h0,
    if_pos (List.all_eq_true.mpr fun c hc => hd c hc), if_pos hv]

/-- `validate_date` succeeds exactly when the string has byte length 10,
splits on `-` into exactly three parts, and each part parses as a `u32` in
the required range. -/
theorem validate_date_ok_iff (d : List Char) :
    DocumentInput.validate_date d = .ok () ↔
      (rustLen d = 10 ∧ ∃ py pm pd y m dd,
        splitOnChar '-' d = [py, pm, pd] ∧
        parseU32 py = some y ∧ 1900 ≤ y ∧ y ≤ 2100 ∧
        parseU32 pm = some m ∧ 1 ≤ m ∧ m ≤ 12 ∧
        parseU32 pd = some dd ∧ 1 ≤ dd ∧ dd ≤ 31) := by
  constructor
  · intro h
    unfold DocumentInput.validate_date at h
    split at h
    · exact absurd h (by simp)
    next hlen =>
      split at h
      next py pm pd heq =>
        split at h
        · exact absurd h (by simp)
        next y hy =>
          split at h
          · exact absurd h (by simp)
          next hyr =>
            split at h
            · exact absurd h (by simp)
            next m hm =>
              split at h
              · exact absurd h (by simp)
              next hmr =>
                split at h
                · exact absurd h (by simp)
                next dd hd =>
                  split at h
                  · exact absurd h (by simp)
                  next hdr =>
                    rw [not_not] at hyr hmr hdr
                    exact ⟨by omega, py, pm, pd, y, m, dd, heq, hy,
                      hyr.1, hyr.2, hm, hmr.1, hmr.2, hd, hdr.1, hdr.2⟩
      next hne => exact absurd h (by simp)
  · rintro ⟨hlen, py, pm, pd, y, m, dd, hsp, hy, h1, h2, hm, h3, h4, hd,
      h5, h6⟩
    unfold DocumentInput.validate_date
    rw [if_neg (by simp [hlen])]
    simp only [hsp]
    simp [hy, hm, hd, h1, h2, h3, h4, h5, h6]

/-- Every strict `YYYY-MM-DD` date with in-range components passes
`validate_date`. -/
theorem isStrictDate_valid {d : List Char} (hs : isStrictDate d = true) :
    DocumentInput.validate_date d = .ok () := by
  unfold isStrictDate at hs
  split at hs
  case _ y1 y2 y3 y4 s1 m1 m2 s2 d1 d2 =>
    simp only [Bool.and_eq_true, beq_iff_eq, decide_eq_true_eq,
      and_assoc] at hs
    obtain ⟨hs1, hs2, hy1, hy2, hy3, hy4, hm1, hm2, hd1, hd2, hyr1, hyr2,
      hmr1, hmr2, hdr1, hdr2⟩ := hs
    subst hs1
    subst hs2
    have hdash : utf8CharLen '-' = 1 := by decide
    have b1 := char_isDigit_bounds hy1
    have b2 := char_isDigit_bounds hy2
    have b3 := char_isDigit_bounds hy3
    have b4 := char_isDigit_bounds hy4
    have b5 := char_isDigit_bounds hm1
    have b6 := char_isDigit_bounds hm2
    have b7 := char_isDigit_bounds hd1
    have b8 := char_isDigit_bounds hd2
    have hlen : rustLen [y1, y2, y3, y4, '-', m1, m2, '-', d1, d2] = 10 := by
      simp [rustLen, digit_utf8 hy1, digit_utf8 hy2, digit_utf8 hy3,
        digit_utf8 hy4, digit_utf8 hm1, digit_utf8 hm2, digit_utf8 hd1,
        digit_utf8 hd2, hdash]
    have hnm : ∀ c : Char, c.isDigit = true → ¬ ('-' = c) :=
      fun c hc he => digit_ne_dash hc he.symm
    have hny : '-' ∉ [y1, y2, y3, y4] := by
      simp [hnm y1 hy1, hnm y2 hy2, hnm y3 hy3, hnm y4 hy4]
    have hnmo : '-' ∉ [m1, m2] := by
      simp [hnm m1 hm1, hnm m2 hm2]
    have hnd : '-' ∉ [d1, d2] := by
      simp [hnm d1 hd1, hnm d2 hd2]
    have hsp : splitOnChar '-' [y1, y2, y3, y4, '-', m1, m2, '-', d1, d2] =
        [[y1, y2, y3, y4], [m1, m2], [d1, d2]] := by
      unfold splitOnChar
      rw [show [y1, y2, y3, y4, '-', m1, m2, '-', d1, d2] =
        [y1, y2, y3, y4] ++ '-' :: ([m1, m2] ++ '-' :: [d1, d2]) from rfl]
      rw [splitOnAux_append_sep '-' [y1, y2, y3, y4] _ [] hny]
      rw [splitOnAux_append_sep '-' [m1, m2] _ [] hnmo]
      rw [splitOnAux_no_sep '-' [d1, d2] [] hnd]
      simp
    have hy := parseU32_digits [y1, y2, y3, y4] (by simp)
      (by simp [List.forall_mem_cons, hy1, hy2, hy3, hy4])
      (by simp only [List.foldl]; omega)
    have hm := parseU32_digits [m1, m2] (by simp)
      (by simp [List.forall_mem_cons, hm1, hm2])
      (by simp only [List.foldl]; omega)
    have hd := parseU32_digits [d1, d2] (by simp)
      (by simp [List.forall_mem_cons, hd1, hd2])
      (by simp only [List.foldl]; omega)
    refine (validate_date_ok_iff _).mpr ⟨hlen, [y1, y2, y3, y4], [m1, m2],
      [d1, d2], _, _, _, hsp, hy, ?_, ?_, hm, ?_, ?_, hd, ?_, ?_⟩ <;>
      simp only [List.foldl] <;> omega
  case _ => exact absurd hs (by simp)

/-- C2 counterexample: `"2025-001-1"` is a format deviation (wrong digit
counts per component) yet `validate_date` accepts it — it only checks the
total byte length, the dash count and the parsed component ranges. -/
theorem validate_date_accepts_deviant_format :
    DocumentInput.validate_date "2025-001-1".data = .ok () ∧
    isStrictDate "2025-001-1".data = false := by
  constructor <;> decide

/-- C2 (amended): `validate_date` accepts every well-formed `YYYY-MM-DD`
date with year in `[1900, 2100]`, month in `[1, 12]` and day in
`[1, 31]`; and in general it succeeds exactly when the string has byte
length 10 and splits on `-` into three parts that parse as `u32` values
in those ranges — which also admits deviant spellings such as
`"2025-001-1"` or `+`-prefixed components. -/
theorem validate_date_characterization (d : List Char) :
    (isStrictDate d = true → DocumentInput.validate_date d = .ok ()) ∧
    (DocumentInput.validate_date d = .ok () ↔
      (rustLen d = 10 ∧ ∃ py pm pd y m dd,
        splitOnChar '-' d = [py, pm, pd] ∧
        parseU32 py = some y ∧ 1900 ≤ y ∧ y ≤ 2100 ∧
        parseU32 pm = some m ∧ 1 ≤ m ∧ m ≤ 12 ∧
        parseU32 pd = some dd ∧ 1 ≤ dd ∧ dd ≤ 31)) :=
  ⟨fun hs => isStrictDate_valid hs, validate_date_ok_iff d⟩

/-- Witness for C2: the strict date `"2025-07-31"` validates. -/
theorem validate_date_characterization_witness :
    DocumentInput.validate_date "2025-07-31".data = .ok () :=
  (validate_date_characterization "2025-07-31".data).1 (by decide)

end Cleanbox
